import Mathlib

/-!
Shallow embedding of quPython's deferred circuit construction engine
(src/qupython/qubit.py, construction.py, function.py).

Python objects are modelled by an explicit state (`TraceState`) holding every
`Bit` (Qubit or BitPromise) and every recorded instruction, indexed by
creation order.  Mutation of an object's attribute becomes an update of the
corresponding entry of the state.  Python set iteration (used when collecting
linked bits) is resolved to ascending-id order, i.e. creation order.
-/

deriving instance DecidableEq for Except

namespace QuPy

/-- One `Bit` object (`Qubit` or `BitPromise` from qubit.py).  `operations`
is the object's `operations` log holding instruction ids; `inverse` and
`value` are the `BitPromise` attributes of the same names; `index` and
`opPointer` are the `index` / `op_pointer` attributes that
`_construct_circuit` assigns during compilation. -/
structure BitData where
  isQubit : Bool
  operations : List Nat
  inverse : Bool
  value : Option Bool
  index : Nat
  opPointer : Nat
  deriving DecidableEq, Repr

/-- One recorded instruction: either a `_quPythonInstruction` (gate) or a
`_quPythonMeasurement`.  `qubits` and `promises` hold bit ids; for a gate,
`qubits` is controls ++ [receiver] and `numControls` records the
`.control(len(qubits))` wrapping; gate parameters are opaque and carried by
`gateName`. -/
structure InstrData where
  isMeasurement : Bool
  gateName : String
  numControls : Nat
  qubits : List Nat
  promises : List Nat
  deriving DecidableEq, Repr

def defaultBit : BitData := ⟨true, [], false, none, 0, 0⟩

def defaultInstr : InstrData := ⟨false, "", 0, [], []⟩

/-- An element of a `conditions` list: a `Qubit`, a `BitPromise`, or a plain
build-time boolean (`_separate_conditions` partitions by `isinstance`, which
this tag mirrors). -/
inductive Cond where
  | qubitC (id : Nat)
  | promiseC (id : Nat)
  | boolC (b : Bool)
  deriving DecidableEq, Repr

/-- The whole mutable state of a trace: every bit ever created (in creation
order), every instruction ever created, and the `__active_controls__`
context variable. -/
structure TraceState where
  bits : List BitData
  instrs : List InstrData
  activeControls : List Cond
  deriving DecidableEq, Repr

def emptyState : TraceState := ⟨[], [], []⟩

/-- List update at an index, out-of-range is a no-op. -/
def updateAt {α : Type} : List α → Nat → (α → α) → List α
  | [], _, _ => []
  | a :: l, 0, f => f a :: l
  | a :: l, n+1, f => a :: updateAt l n f

def TraceState.bit (s : TraceState) (b : Nat) : BitData := s.bits.getD b defaultBit

def TraceState.instr (s : TraceState) (i : Nat) : InstrData := s.instrs.getD i defaultInstr

def updBit (s : TraceState) (b : Nat) (f : BitData → BitData) : TraceState :=
  { s with bits := updateAt s.bits b f }

/-- `Qubit.__init__`: allocate a fresh qubit with an empty operations log;
returns its id (= position in creation order). -/
def TraceState.newQubit (s : TraceState) : TraceState × Nat :=
  ({ s with bits := s.bits ++ [⟨true, [], false, none, 0, 0⟩] }, s.bits.length)

/-- The `qubits` component of `Qubit._separate_conditions`. -/
def condQubits (l : List Cond) : List Nat :=
  l.filterMap fun c => match c with | .qubitC i => some i | _ => none

/-- The `promises` component of `Qubit._separate_conditions`. -/
def condPromises (l : List Cond) : List Nat :=
  l.filterMap fun c => match c with | .promiseC i => some i | _ => none

/-- The `build_time_conditions` component of `Qubit._separate_conditions`. -/
def condBools (l : List Cond) : List Bool :=
  l.filterMap fun c => match c with | .boolC b => some b | _ => none

/-- `bit.operations.append(inst)` for bit id `b`. -/
def appendOp (s : TraceState) (b : Nat) (iid : Nat) : TraceState :=
  updBit s b fun bd => { bd with operations := bd.operations ++ [iid] }

/-- A `for bit in l: bit.operations.append(inst)` loop. -/
def appendOps (l : List Nat) (iid : Nat) (s : TraceState) : TraceState :=
  l.foldl (fun st b => appendOp st b iid) s

/-- `add_gate` from `Qubit._create_1q_gate_methods` (qubit.py lines
136-157): combine explicit conditions with the active controls, partition
them, short-circuit when a build-time condition is false, otherwise record
one instruction (controls ++ receiver as its qubits, promise conditions as
its classical conditions) and append it to every operand's log.  Returns
`some self` (the receiver, for chaining) or `none` (Python's `return` with
no value). -/
def add_gate (name : String) (conds : List Cond) (self : Nat) (s : TraceState) :
    TraceState × Option Nat :=
  let conditions := conds ++ s.activeControls
  let qs := condQubits conditions
  let ps := condPromises conditions
  let bts := condBools conditions
  if bts.all (fun b => b) then
    let iid := s.instrs.length
    let inst : InstrData := ⟨false, name, qs.length, qs ++ [self], ps⟩
    let s1 := { s with instrs := s.instrs ++ [inst] }
    let s2 := appendOps (qs ++ [self]) iid s1
    let s3 := appendOps ps iid s2
    (s3, some self)
  else (s, none)

inductive QuErr where
  | conditionMeasurementAtRuntime
  | bitPromiseNotResolved
  deriving DecidableEq, Repr

/-- `Qubit.measure` (qubit.py lines 179-192): raise if any combined
condition is a Qubit or BitPromise; return `none` if a build-time condition
is false; otherwise create a `_quPythonMeasurement` with one fresh
`BitPromise`, append it to the qubit's log (the promise's log starts as
`[measurement_instruction]` via `BitPromise.__init__`) and return the
promise's id. -/
def Qubit.measure (conds : List Cond) (self : Nat) (s : TraceState) :
    TraceState × Except QuErr (Option Nat) :=
  let conditions := conds ++ s.activeControls
  let qs := condQubits conditions
  let ps := condPromises conditions
  let bts := condBools conditions
  if qs.length + ps.length ≠ 0 then (s, .error .conditionMeasurementAtRuntime)
  else if bts.all (fun b => b) then
    let iid := s.instrs.length
    let pid := s.bits.length
    let s1 := { s with bits := s.bits ++ [⟨false, [iid], false, none, 0, 0⟩],
                       instrs := s.instrs ++ [⟨true, "measure", 0, [self], [pid]⟩] }
    (appendOp s1 self iid, .ok (some pid))
  else (s, .ok none)

/-- `BitPromise.__invert__` (qubit.py lines 271-280): build a sibling
promise on the same source measurement (`self.operations[0]`) with the
`inverse` flag flipped, and register it as an extra output of that
measurement. -/
def BitPromise.invert (pid : Nat) (s : TraceState) : TraceState × Nat :=
  let p := s.bit pid
  let mid := p.operations.headD 0
  let newPid := s.bits.length
  let s1 := { s with
    bits := s.bits ++ [⟨false, [mid], !p.inverse, none, 0, 0⟩],
    instrs := updateAt s.instrs mid fun i => { i with promises := i.promises ++ [newPid] } }
  (s1, newPid)

/-- `BitPromise.__bool__`: error before resolution, otherwise the stored
value negated when the promise is inverted. -/
def BitData.toBool (p : BitData) : Except QuErr Bool :=
  match p.value with
  | none => .error .bitPromiseNotResolved
  | some v => .ok (if p.inverse then !v else v)

/-- `_ControlBitContextManager.__enter__`: push the control onto
`__active_controls__`, remembering the previous value as the reset token. -/
def enterControl (c : Cond) (s : TraceState) : TraceState × List Cond :=
  ({ s with activeControls := s.activeControls ++ [c] }, s.activeControls)

/-- `_ControlBitContextManager.__exit__`: `ContextVar.reset` to the value
saved at entry. -/
def exitControl (token : List Cond) (s : TraceState) : TraceState :=
  { s with activeControls := token }

/-- A `with bit.as_control():` block: enter, run the body (whose result may
be an `Except`-valued "raised" outcome), and exit unconditionally — Python's
`with` statement runs `__exit__` on both normal and exceptional exit. -/
def withControl {β : Type} (c : Cond) (body : TraceState → TraceState × β)
    (s : TraceState) : TraceState × β :=
  let r := enterControl c s
  let r2 := body r.1
  (exitControl r.2 r2.1, r2.2)

/-- One emitted circuit element: `circuit.measure(q, c)` or
`circuit.append(gate, qargs)` under the `if_test` guards
`(clbit index, required value)` opened around it. -/
inductive CircuitInstr where
  | measure (q : Nat) (c : Nat)
  | gate (name : String) (numControls : Nat) (guards : List (Nat × Bool)) (qargs : List Nat)
  deriving DecidableEq, Repr

/-- `qiskit.QuantumCircuit(len(qubits), len(promises))` plus its appended
data, as far as the engine drives it. -/
structure Circuit where
  numQubits : Nat
  numClbits : Nat
  data : List CircuitInstr
  deriving DecidableEq, Repr

/-- Insert into an ascending duplicate-free list of ids. -/
def insertSorted (x : Nat) : List Nat → List Nat
  | [] => [x]
  | y :: ys =>
    if x < y then x :: y :: ys
    else if x = y then y :: ys
    else y :: insertSorted x ys

def setUnion (l : List Nat) (extra : List Nat) : List Nat :=
  extra.foldl (fun acc x => insertSorted x acc) l

/-- `op.qubits + op.promises` for instruction id `iid`. -/
def instBits (s : TraceState) (iid : Nat) : List Nat :=
  (s.instr iid).qubits ++ (s.instr iid).promises

/-- All bits touched by instructions of bit `b`'s log (the inner loop of
`Bit._get_linked_bits`). -/
def reachedFrom (s : TraceState) (b : Nat) : List Nat :=
  (s.bit b).operations.foldl (fun acc iid => acc ++ instBits s iid) []

/-- One pass of the `while len(searched_bits) < len(all_known_bits)` search. -/
def closeOnce (s : TraceState) (known : List Nat) : List Nat :=
  known.foldl (fun acc b => setUnion acc (reachedFrom s b)) known

def closeRec : Nat → TraceState → List Nat → List Nat
  | 0, _, known => known
  | n+1, s, known =>
    let next := closeOnce s known
    if next = known then known else closeRec n s next

def closureFuel (s : TraceState) : Nat :=
  s.bits.length + s.instrs.foldl (fun a i => a + i.qubits.length + i.promises.length) 0 + 1

/-- `Bit._get_linked_bits` / `_get_bits_from_promises`: fixed-point closure
of the operand-instruction hypergraph from the requested bits.  Python
iterates over hash sets; the result set is represented here in ascending id
(= creation) order. -/
def _get_linked_bits (s : TraceState) (start : List Nat) : List Nat :=
  closeRec (closureFuel s) s (setUnion [] start)

/-- `_waiting_for_bits` (construction.py lines 57-64): the instruction is
not ready unless every touched bit's cursor points exactly at it. -/
def _waiting_for_bits (s : TraceState) (iid : Nat) : Bool :=
  (instBits s iid).any fun b =>
    decide (((s.bit b).operations.get? (s.bit b).opPointer) ≠ some iid)

def bumpPointer (s : TraceState) (b : Nat) : TraceState :=
  updBit s b fun bd => { bd with opPointer := bd.opPointer + 1 }

/-- Body of the `for op in qubit.operations[qubit.op_pointer:]` loop of
`_add_instructions_to_circuit`: stop at the first instruction still waiting
for another bit; otherwise advance every touched bit's cursor (once per
occurrence) and emit — a measurement of the walked qubit into each output
promise's clbit, or the gate guarded by its promise conditions. -/
def addInstrsAux (qIndex : Nat) : List Nat → TraceState × Circuit → TraceState × Circuit
  | [], sc => sc
  | iid :: rest, (s, c) =>
    if _waiting_for_bits s iid then (s, c)
    else
      let inst := s.instr iid
      let s1 := (instBits s iid).foldl bumpPointer s
      if inst.isMeasurement then
        let c1 := { c with data := c.data ++
          inst.promises.map fun p => CircuitInstr.measure qIndex ((s1.bit p).index) }
        addInstrsAux qIndex rest (s1, c1)
      else
        let guards := inst.promises.map fun p => (((s1.bit p).index), !(s1.bit p).inverse)
        let c1 := { c with data := c.data ++
          [CircuitInstr.gate inst.gateName inst.numControls guards
            (inst.qubits.map fun q => (s1.bit q).index)] }
        addInstrsAux qIndex rest (s1, c1)

/-- `_add_instructions_to_circuit(circuit, qubit)` (construction.py lines
67-87). -/
def _add_instructions_to_circuit (sc : TraceState × Circuit) (q : Nat) :
    TraceState × Circuit :=
  addInstrsAux ((sc.1.bit q).index) ((sc.1.bit q).operations.drop (sc.1.bit q).opPointer) sc

def anyUnfinished (s : TraceState) (qubitIds : List Nat) : Bool :=
  qubitIds.any fun q => decide ((s.bit q).opPointer < (s.bit q).operations.length)

/-- The `while any(q.op_pointer < len(q.operations) ...)` loop of
`_construct_circuit`, fuelled (a stalled pass would loop forever in the
source; the fuel below always covers a stall-free construction). -/
def constructLoop : Nat → List Nat → TraceState × Circuit → TraceState × Circuit
  | 0, _, sc => sc
  | fuel+1, qubitIds, sc =>
    if anyUnfinished sc.1 qubitIds then
      constructLoop fuel qubitIds (qubitIds.foldl _add_instructions_to_circuit sc)
    else sc

/-- Assign `bit.index = enumerate position; bit.op_pointer = 0` over a list
of bit ids. -/
def assignIndices (s : TraceState) (ids : List Nat) : TraceState :=
  (ids.foldl (fun p b =>
    (updBit p.1 b (fun bd => { bd with index := p.2, opPointer := 0 }), p.2 + 1))
    (s, 0)).1

def totalOps (s : TraceState) : Nat :=
  s.bits.foldl (fun a b => a + b.operations.length) 0

/-- `_construct_circuit(promises)` (construction.py lines 89-108): close
over the linked bits, split them into qubits and promises (in the stable
creation order), assign circuit indices and reset cursors, then run the
multi-cursor merge loop. -/
def _construct_circuit (s : TraceState) (requested : List Nat) :
    TraceState × Circuit :=
  let bits := _get_linked_bits s requested
  let qubitIds := bits.filter fun b => (s.bit b).isQubit
  let promIds := bits.filter fun b => !(s.bit b).isQubit
  let s1 := assignIndices s qubitIds
  let s2 := assignIndices s1 promIds
  constructLoop (totalOps s + 1) qubitIds (s2, ⟨qubitIds.length, promIds.length, []⟩)

def setValue (s : TraceState) (pid : Nat) (v : Bool) : TraceState :=
  updBit s pid fun bd => { bd with value := some v }

/-- `quPythonFunction.interpret_result` (function.py lines 116-128) on the
single-shot outcome bitmask: `promise.value = bool((1 << promise.index) &
integer)` for each requested promise. -/
def interpret_result (s : TraceState) (requested : List Nat) (integer : Nat) :
    TraceState :=
  requested.foldl (fun st pid => setValue st pid (Nat.testBit integer (st.bit pid).index)) s

/-- Replace a bit's operations log, keeping every other attribute. -/
def withOps (bd : BitData) (ops : List Nat) : BitData :=
  { bd with operations := ops }

def Circuit.gateCount (c : Circuit) : Nat :=
  (c.data.filter fun i => match i with | .gate _ _ _ _ => true | _ => false).length

def Circuit.measureCount (c : Circuit) : Nat :=
  (c.data.filter fun i => match i with | .measure _ _ => true | _ => false).length

/-! ### Concrete traces used by the scenario theorems -/

/-- A trace holding one fresh qubit (id 0). -/
def s_q1 : TraceState := (TraceState.newQubit emptyState).1

/-- The one-qubit trace after `qubit.measure()`: promise id 1, instruction
id 0 is the measurement. -/
def s_meas : TraceState := (Qubit.measure [] 0 s_q1).1

/-- `s_meas` after inverting promise 1: sibling promise id 2 with the
`inverse` flag set, registered on measurement 0. -/
def s_inv : TraceState := (BitPromise.invert 1 s_meas).1

/-- `s_meas` extended with a second qubit (id 2) carrying an `x` gate
conditioned on promise 1 (instruction id 1). -/
def s_condGate : TraceState :=
  (add_gate "x" [Cond.promiseC 1] 2 (TraceState.newQubit s_meas).1).1

/-! ### Well-formedness, reachable trace states -/

/-- A condition object is well formed when its tag matches the kind of the
bit it references — guaranteed in the source by `isinstance` checks on real
`Qubit` / `BitPromise` objects. -/
def wfCond (s : TraceState) : Cond → Prop
  | .qubitC i => i < s.bits.length ∧ (s.bit i).isQubit = true
  | .promiseC i => i < s.bits.length ∧ (s.bit i).isQubit = false
  | .boolC _ => True

/-- Every id in every operations log refers to a recorded instruction. -/
def logsBounded (s : TraceState) : Prop :=
  ∀ b, b < s.bits.length → ∀ i ∈ (s.bit b).operations, i < s.instrs.length

/-- Shape of every promise's log: it starts with the measurement that
created the promise, and every later entry is a gate instruction that uses
the promise as a classical condition. -/
def promiseShape (s : TraceState) : Prop :=
  ∀ p, p < s.bits.length → (s.bit p).isQubit = false →
    ∃ m rest, (s.bit p).operations = m :: rest ∧
      (s.instr m).isMeasurement = true ∧ p ∈ (s.instr m).promises ∧
      ∀ i ∈ rest, (s.instr i).isMeasurement = false ∧ p ∈ (s.instr i).promises

def controlsWF (s : TraceState) : Prop := ∀ c ∈ s.activeControls, wfCond s c

def Inv (s : TraceState) : Prop := logsBounded s ∧ controlsWF s ∧ promiseShape s

/-- States reachable by a trace: any sequence of the public tracing
operations, applied with the argument typing the Python API enforces (gate
and measure receivers are `Qubit` objects, `__invert__` receivers are
`BitPromise` objects, conditions and controls are real bits or booleans). -/
inductive Reachable : TraceState → Prop where
  | empty : Reachable emptyState
  | newQubit (s : TraceState) : Reachable s → Reachable (TraceState.newQubit s).1
  | gate (s : TraceState) (name : String) (conds : List Cond) (self : Nat) :
      Reachable s → self < s.bits.length → (s.bit self).isQubit = true →
      (∀ c ∈ conds, wfCond s c) → Reachable (add_gate name conds self s).1
  | measureQ (s : TraceState) (conds : List Cond) (self : Nat) :
      Reachable s → self < s.bits.length → (s.bit self).isQubit = true →
      (∀ c ∈ conds, wfCond s c) → Reachable (Qubit.measure conds self s).1
  | invertP (s : TraceState) (pid : Nat) :
      Reachable s → pid < s.bits.length → (s.bit pid).isQubit = false →
      Reachable (BitPromise.invert pid s).1
  | enterC (s : TraceState) (c : Cond) :
      Reachable s → wfCond s c → Reachable (enterControl c s).1
  | exitC (s : TraceState) (cs : List Cond) :
      Reachable s → (∀ c ∈ cs, wfCond s c) → Reachable (exitControl cs s)

/-- A condition that is a bit (Qubit or BitPromise), not a build-time bool. -/
def Cond.isBit : Cond → Bool
  | .boolC _ => false
  | _ => true

/-- A literally-false build-time condition. -/
def Cond.isFalseCond : Cond → Bool
  | .boolC false => true
  | _ => false

/-! ### Generic list lemmas for the state accessors -/

theorem updateAt_length {α : Type} (l : List α) (i : Nat) (f : α → α) :
    (updateAt l i f).length = l.length := by
  induction l generalizing i with
  | nil => rfl
  | cons a t ih =>
    cases i with
    | zero => rfl
    | succ n => simpa [updateAt] using ih n

theorem getD_updateAt_ne {α : Type} (l : List α) (i j : Nat) (f : α → α) (d : α)
    (h : i ≠ j) : (updateAt l i f).getD j d = l.getD j d := by
  induction l generalizing i j with
  | nil => rfl
  | cons a t ih =>
    cases i with
    | zero =>
      cases j with
      | zero => exact absurd rfl h
      | succ m => rfl
    | succ n =>
      cases j with
      | zero => rfl
      | succ m =>
        have h' : n ≠ m := fun e => h (by rw [e])
        simpa [updateAt, List.getD] using ih n m h'

theorem getD_updateAt_eq {α : Type} (l : List α) (i : Nat) (f : α → α) (d : α)
    (h : i < l.length) : (updateAt l i f).getD i d = f (l.getD i d) := by
  induction l generalizing i with
  | nil => simp at h
  | cons a t ih =>
    cases i with
    | zero => rfl
    | succ n =>
      have h' : n < t.length := Nat.lt_of_succ_lt_succ h
      simpa [updateAt, List.getD] using ih n h'

theorem getD_append_left {α : Type} (l l' : List α) (i : Nat) (d : α)
    (h : i < l.length) : (l ++ l').getD i d = l.getD i d := by
  induction l generalizing i with
  | nil => simp at h
  | cons a t ih =>
    cases i with
    | zero => rfl
    | succ n =>
      have h' : n < t.length := Nat.lt_of_succ_lt_succ h
      simpa [List.getD] using ih n h'

theorem getD_append_self {α : Type} (l : List α) (x : α) (d : α) :
    (l ++ [x]).getD l.length d = x := by
  induction l with
  | nil => rfl
  | cons a t ih => simp [List.getD, ih]

theorem getD_out_of_range {α : Type} (l : List α) (i : Nat) (d : α)
    (h : l.length ≤ i) : l.getD i d = d := by
  induction l generalizing i with
  | nil => cases i <;> rfl
  | cons a t ih =>
    cases i with
    | zero => simp at h
    | succ n => simpa [List.getD] using ih n (Nat.le_of_succ_le_succ h)

theorem updateAt_out_of_range {α : Type} (l : List α) (i : Nat) (f : α → α)
    (h : l.length ≤ i) : updateAt l i f = l := by
  induction l generalizing i with
  | nil => rfl
  | cons a t ih =>
    cases i with
    | zero => simp at h
    | succ n => simpa [updateAt] using ih n (Nat.le_of_succ_le_succ h)

/-! ### State-accessor lemmas -/

theorem updBit_bit_ne (s : TraceState) (b j : Nat) (f : BitData → BitData)
    (h : b ≠ j) : (updBit s b f).bit j = s.bit j :=
  getD_updateAt_ne s.bits b j f defaultBit h

theorem updBit_bit_eq (s : TraceState) (b : Nat) (f : BitData → BitData)
    (h : b < s.bits.length) : (updBit s b f).bit b = f (s.bit b) :=
  getD_updateAt_eq s.bits b f defaultBit h

theorem updBit_length (s : TraceState) (b : Nat) (f : BitData → BitData) :
    (updBit s b f).bits.length = s.bits.length :=
  updateAt_length s.bits b f

theorem updBit_instrs (s : TraceState) (b : Nat) (f : BitData → BitData) :
    (updBit s b f).instrs = s.instrs := rfl

theorem updBit_controls (s : TraceState) (b : Nat) (f : BitData → BitData) :
    (updBit s b f).activeControls = s.activeControls := rfl

theorem appendOps_instrs (l : List Nat) (iid : Nat) (s : TraceState) :
    (appendOps l iid s).instrs = s.instrs := by
  induction l generalizing s with
  | nil => rfl
  | cons p t ih => simpa [appendOps, List.foldl] using ih (appendOp s p iid)

theorem appendOps_controls (l : List Nat) (iid : Nat) (s : TraceState) :
    (appendOps l iid s).activeControls = s.activeControls := by
  induction l generalizing s with
  | nil => rfl
  | cons p t ih => simpa [appendOps, List.foldl] using ih (appendOp s p iid)

theorem appendOps_length (l : List Nat) (iid : Nat) (s : TraceState) :
    (appendOps l iid s).bits.length = s.bits.length := by
  induction l generalizing s with
  | nil => rfl
  | cons p t ih =>
    have : (appendOps (p :: t) iid s) = appendOps t iid (appendOp s p iid) := rfl
    rw [this, ih, appendOp, updBit_length]

/-- Each bit collects one log entry per occurrence of its id in the looped
list. -/
theorem appendOps_bit (l : List Nat) (iid : Nat) (s : TraceState) (b : Nat)
    (hb : b < s.bits.length) :
    (appendOps l iid s).bit b =
      { s.bit b with operations :=
          (s.bit b).operations ++ List.replicate (l.count b) iid } := by
  induction l generalizing s with
  | nil => simp [appendOps]
  | cons p t ih =>
    have hstep : (appendOps (p :: t) iid s) = appendOps t iid (appendOp s p iid) := rfl
    have hlen : b < (appendOp s p iid).bits.length := by
      rw [appendOp, updBit_length]; exact hb
    by_cases hpb : p = b
    · subst hpb
      have h1 : (appendOp s p iid).bit p =
          { s.bit p with operations := (s.bit p).operations ++ [iid] } :=
        updBit_bit_eq s p _ hb
      rw [hstep, ih _ hlen, h1]
      simp [List.count_cons, List.append_assoc, List.replicate_succ]
    · have h1 : (appendOp s p iid).bit b = s.bit b :=
        updBit_bit_ne s p b _ hpb
      rw [hstep, ih _ hlen, h1]
      have : (p :: t).count b = t.count b := by
        simp [List.count_cons, hpb]
      rw [this]

/-! ### Claim theorems -/

/-- C4: a gate call whose combined conditions (explicit conditions plus the
active scope controls) contain at least one false build-time (non-Qubit,
non-Promise) value is a no-op — the state, hence every operand's operations
log and the recorded instruction list, is unchanged, `None` is returned,
and compiling any request against the resulting state yields the very
circuit of the unmodified trace, under any mix of true/false booleans,
Promises and Qubits among the conditions. -/
theorem C4_build_time_short_circuit (name : String) (conds : List Cond)
    (self : Nat) (s : TraceState)
    (h : (conds ++ s.activeControls).any Cond.isFalseCond = true) :
    add_gate name conds self s = (s, none) ∧
    ∀ req, _construct_circuit (add_gate name conds self s).1 req
      = _construct_circuit s req := by
  have hbt : (condBools (conds ++ s.activeControls)).all (fun b => b) = false := by
    rcases List.any_eq_true.mp h with ⟨c, hc, hfc⟩
    have hmem : false ∈ condBools (conds ++ s.activeControls) := by
      apply List.mem_filterMap.mpr
      refine ⟨c, hc, ?_⟩
      cases c with
      | boolC b => cases b with
        | false => rfl
        | true => simp [Cond.isFalseCond] at hfc
      | qubitC i => simp [Cond.isFalseCond] at hfc
      | promiseC i => simp [Cond.isFalseCond] at hfc
    cases hall : (condBools (conds ++ s.activeControls)).all (fun b => b) with
    | false => rfl
    | true => exact absurd (List.all_eq_true.mp hall false hmem) (by decide)
  have hng : add_gate name conds self s = (s, none) := by
    simp [add_gate, hbt]
  exact ⟨hng, fun req => by rw [hng]⟩

theorem C4_build_time_short_circuit_witness :
    add_gate "x" [Cond.qubitC 0, Cond.promiseC 1, Cond.boolC true, Cond.boolC false]
      0 s_meas = (s_meas, none) :=
  (C4_build_time_short_circuit "x"
    [Cond.qubitC 0, Cond.promiseC 1, Cond.boolC true, Cond.boolC false]
    0 s_meas (by decide)).1

set_option maxRecDepth 4000 in
/-- C6 (amended): when every build-time condition is true, a gate call
creates exactly one new Instruction whose `qubits` is the quantum-control
operands followed by the receiver and whose classical conditions are the
Promise operands, and appends it to the operations log of each operand once
per occurrence in `qubits ++ classical_conditions` — so exactly once per
operand when those lists name each operand at most once — and to no other
operand's log. -/
theorem C6_gate_instruction_construction (name : String) (conds : List Cond)
    (self : Nat) (s : TraceState)
    (hbt : (condBools (conds ++ s.activeControls)).all (fun b => b) = true) :
    (add_gate name conds self s).2 = some self ∧
    (add_gate name conds self s).1.instrs = s.instrs ++
      [⟨false, name, (condQubits (conds ++ s.activeControls)).length,
        condQubits (conds ++ s.activeControls) ++ [self],
        condPromises (conds ++ s.activeControls)⟩] ∧
    (add_gate name conds self s).1.bits.length = s.bits.length ∧
    ∀ b, b < s.bits.length →
      ((add_gate name conds self s).1.bit b).operations =
        (s.bit b).operations ++
          List.replicate
            (((condQubits (conds ++ s.activeControls) ++ [self]) ++
              condPromises (conds ++ s.activeControls)).count b)
            s.instrs.length := by
  have hred : add_gate name conds self s =
      (appendOps (condPromises (conds ++ s.activeControls)) s.instrs.length
        (appendOps (condQubits (conds ++ s.activeControls) ++ [self]) s.instrs.length
          { s with instrs := s.instrs ++
            [⟨false, name, (condQubits (conds ++ s.activeControls)).length,
              condQubits (conds ++ s.activeControls) ++ [self],
              condPromises (conds ++ s.activeControls)⟩] }),
       some self) := by
    simp [add_gate, hbt]
  refine ⟨by rw [hred], ?_, ?_, ?_⟩
  · rw [hred]
    simp [appendOps_instrs]
  · rw [hred]
    simp [appendOps_length]
  · intro b hb
    rw [hred]
    have hb1 : b < ({ s with instrs := s.instrs ++
            [(⟨false, name, (condQubits (conds ++ s.activeControls)).length,
              condQubits (conds ++ s.activeControls) ++ [self],
              condPromises (conds ++ s.activeControls)⟩ : InstrData)] } : TraceState).bits.length := hb
    have hb2 : b < (appendOps (condQubits (conds ++ s.activeControls) ++ [self])
        s.instrs.length { s with instrs := s.instrs ++
            [(⟨false, name, (condQubits (conds ++ s.activeControls)).length,
              condQubits (conds ++ s.activeControls) ++ [self],
              condPromises (conds ++ s.activeControls)⟩ : InstrData)] }).bits.length := by
      rw [appendOps_length]; exact hb
    rw [appendOps_bit _ _ _ _ hb2, appendOps_bit _ _ _ _ hb1]
    show ((s.bit b).operations ++ _) ++ _ = _
    rw [List.append_assoc]
    rw [List.count_append, List.count_append, List.replicate_add, List.replicate_add,
      List.count_append, List.replicate_add]

theorem C6_gate_instruction_construction_witness :
    (add_gate "x" [Cond.promiseC 1] 2 (TraceState.newQubit s_meas).1).2 = some 2 ∧
    (s_condGate.bit 1).operations = [0] ++ List.replicate 1 1 :=
  ⟨(C6_gate_instruction_construction "x" [Cond.promiseC 1] 2
      (TraceState.newQubit s_meas).1 (by decide)).1,
   by
    have h := (C6_gate_instruction_construction "x" [Cond.promiseC 1] 2
      (TraceState.newQubit s_meas).1 (by decide)).2.2.2 1 (by decide)
    simpa using h⟩

/-- C10: a gate method returns the receiver when every build-time condition
is true and `None` when one is false; `Qubit.measure` with only build-time
conditions, one of them false, likewise returns `None` rather than a
promise (leaving the trace untouched). -/
theorem C10_short_circuit_returns (name : String) (conds : List Cond)
    (self : Nat) (s : TraceState) :
    ((condBools (conds ++ s.activeControls)).all (fun b => b) = true →
      (add_gate name conds self s).2 = some self) ∧
    ((condBools (conds ++ s.activeControls)).all (fun b => b) = false →
      (add_gate name conds self s).2 = none) ∧
    (condQubits (conds ++ s.activeControls) = [] →
     condPromises (conds ++ s.activeControls) = [] →
     (condBools (conds ++ s.activeControls)).all (fun b => b) = false →
      Qubit.measure conds self s = (s, .ok none)) :=
  ⟨fun h => by simp [add_gate, h],
   fun h => by simp [add_gate, h],
   fun hq hp h => by simp [Qubit.measure, hq, hp, h]⟩

theorem C10_short_circuit_returns_witness :
    (add_gate "x" [] 0 s_q1).2 = some 0 ∧
    (add_gate "x" [Cond.boolC false] 0 s_q1).2 = none ∧
    Qubit.measure [Cond.boolC false] 0 s_q1 = (s_q1, .ok none) :=
  ⟨(C10_short_circuit_returns "x" [] 0 s_q1).1 (by decide),
   (C10_short_circuit_returns "x" [Cond.boolC false] 0 s_q1).2.1 (by decide),
   (C10_short_circuit_returns "x" [Cond.boolC false] 0 s_q1).2.2
     (by decide) (by decide) (by decide)⟩

theorem condBits_nil_of_not_any (l : List Cond) (h : l.any Cond.isBit = false) :
    condQubits l = [] ∧ condPromises l = [] := by
  constructor
  · cases hq : condQubits l with
    | nil => rfl
    | cons x t =>
      have hx : x ∈ condQubits l := by rw [hq]; exact List.mem_cons_self x t
      rcases List.mem_filterMap.mp hx with ⟨c, hc, hm⟩
      have hbit : Cond.isBit c = true := by
        cases c <;> simp [Cond.isBit] at hm ⊢
      have := List.any_eq_true.mpr ⟨c, hc, hbit⟩
      rw [h] at this; cases this
  · cases hp : condPromises l with
    | nil => rfl
    | cons x t =>
      have hx : x ∈ condPromises l := by rw [hp]; exact List.mem_cons_self x t
      rcases List.mem_filterMap.mp hx with ⟨c, hc, hm⟩
      have hbit : Cond.isBit c = true := by
        cases c <;> simp [Cond.isBit] at hm ⊢
      have := List.any_eq_true.mpr ⟨c, hc, hbit⟩
      rw [h] at this; cases this

theorem measure_error_iff (conds : List Cond) (self : Nat) (s : TraceState) :
    (Qubit.measure conds self s).2 = .error .conditionMeasurementAtRuntime ↔
      (conds ++ s.activeControls).any Cond.isBit = true := by
  cases ha : (conds ++ s.activeControls).any Cond.isBit with
  | true =>
    rcases List.any_eq_true.mp ha with ⟨c, hc, hbit⟩
    have hlen : (condQubits (conds ++ s.activeControls)).length +
        (condPromises (conds ++ s.activeControls)).length ≠ 0 := by
      cases c with
      | qubitC i =>
        have hmem : i ∈ condQubits (conds ++ s.activeControls) :=
          List.mem_filterMap.mpr ⟨.qubitC i, hc, rfl⟩
        intro h0
        have h1 : (condQubits (conds ++ s.activeControls)).length = 0 :=
          Nat.eq_zero_of_add_eq_zero_right h0
        rw [List.length_eq_zero.mp h1] at hmem
        cases hmem
      | promiseC i =>
        have hmem : i ∈ condPromises (conds ++ s.activeControls) :=
          List.mem_filterMap.mpr ⟨.promiseC i, hc, rfl⟩
        intro h0
        have h1 : (condPromises (conds ++ s.activeControls)).length = 0 :=
          Nat.eq_zero_of_add_eq_zero_left h0
        rw [List.length_eq_zero.mp h1] at hmem
        cases hmem
      | boolC b => simp [Cond.isBit] at hbit
    simp [Qubit.measure, hlen]
  | false =>
    rcases condBits_nil_of_not_any _ ha with ⟨hq, hp⟩
    simp only [Qubit.measure, hq, hp]
    constructor
    · intro h
      simp at h
      split at h <;> cases h
    · intro h; cases h

theorem measure_success (conds : List Cond) (self : Nat) (s : TraceState)
    (hq : condQubits (conds ++ s.activeControls) = [])
    (hp : condPromises (conds ++ s.activeControls) = [])
    (hall : (condBools (conds ++ s.activeControls)).all (fun b => b) = true) :
    Qubit.measure conds self s =
      (appendOp { s with
          bits := s.bits ++ [⟨false, [s.instrs.length], false, none, 0, 0⟩],
          instrs := s.instrs ++ [⟨true, "measure", 0, [self], [s.bits.length]⟩] }
        self s.instrs.length,
       .ok (some s.bits.length)) := by
  simp [Qubit.measure, hq, hp, hall]

/-- C5 (amended): `Qubit.measure` raises the illegal-measurement-condition
error exactly when its combined conditions contain a Qubit or a Promise.
Otherwise it is still subject to the build-time short-circuit: when every
build-time condition is true it creates exactly one fresh Promise, appends
the new Measurement to the Qubit's log and to the new Promise's own log
(touching no other operand) and returns that Promise; when some build-time
condition is false it creates nothing and returns `None`. -/
theorem C5_measurement_contract (conds : List Cond) (self : Nat)
    (s : TraceState) (hself : self < s.bits.length) :
    ((Qubit.measure conds self s).2 = .error .conditionMeasurementAtRuntime ↔
      (conds ++ s.activeControls).any Cond.isBit = true) ∧
    ((conds ++ s.activeControls).any Cond.isBit = false →
     (condBools (conds ++ s.activeControls)).all (fun b => b) = true →
      (Qubit.measure conds self s).2 = .ok (some s.bits.length) ∧
      (Qubit.measure conds self s).1.bits.length = s.bits.length + 1 ∧
      (Qubit.measure conds self s).1.bit s.bits.length =
        ⟨false, [s.instrs.length], false, none, 0, 0⟩ ∧
      (Qubit.measure conds self s).1.instrs =
        s.instrs ++ [⟨true, "measure", 0, [self], [s.bits.length]⟩] ∧
      ((Qubit.measure conds self s).1.bit self).operations =
        (s.bit self).operations ++ [s.instrs.length] ∧
      (∀ b, b < s.bits.length → b ≠ self →
        (Qubit.measure conds self s).1.bit b = s.bit b)) ∧
    ((conds ++ s.activeControls).any Cond.isBit = false →
     (condBools (conds ++ s.activeControls)).all (fun b => b) = false →
      Qubit.measure conds self s = (s, .ok none)) := by
  refine ⟨measure_error_iff conds self s, ?_, ?_⟩
  · intro ha hall
    rcases condBits_nil_of_not_any _ ha with ⟨hq, hp⟩
    have hred := measure_success conds self s hq hp hall
    have hselfpid : self ≠ s.bits.length := Nat.ne_of_lt hself
    have hlen1 : self <
        (s.bits ++ [(⟨false, [s.instrs.length], false, none, 0, 0⟩ : BitData)]).length := by
      rw [List.length_append]
      exact Nat.lt_of_lt_of_le hself (Nat.le_add_right _ _)
    refine ⟨by rw [hred], ?_, ?_, by rw [hred]; rfl, ?_, ?_⟩
    · rw [hred]
      show (updBit _ self _).bits.length = _
      rw [updBit_length]
      simp
    · rw [hred]
      show (updBit _ self _).bit (s.bits.length) = _
      rw [updBit_bit_ne _ _ _ _ hselfpid]
      show (s.bits ++ _).getD s.bits.length defaultBit = _
      exact getD_append_self s.bits _ defaultBit
    · rw [hred]
      show ((updBit _ self _).bit self).operations = _
      rw [updBit_bit_eq _ _ _ hlen1]
      show ((s.bits ++ _).getD self defaultBit).operations ++ _ = _
      rw [getD_append_left _ _ _ _ hself]
      rfl
    · intro b hb hbself
      rw [hred]
      show (updBit _ self _).bit b = _
      rw [updBit_bit_ne _ _ _ _ (fun e => hbself e.symm)]
      show (s.bits ++ _).getD b defaultBit = _
      exact getD_append_left _ _ _ _ hb
  · intro ha hall
    rcases condBits_nil_of_not_any _ ha with ⟨hq, hp⟩
    simp [Qubit.measure, hq, hp, hall]

theorem C5_measurement_contract_witness :
    ((Qubit.measure [Cond.qubitC 0] 0 s_q1).2
      = .error .conditionMeasurementAtRuntime) ∧
    ((Qubit.measure [] 0 s_q1).2 = .ok (some 1)) ∧
    (Qubit.measure [Cond.boolC false] 0 s_q1 = (s_q1, .ok none)) :=
  ⟨((C5_measurement_contract [Cond.qubitC 0] 0 s_q1 (by decide)).1).mpr (by decide),
   by
    have h := ((C5_measurement_contract [] 0 s_q1 (by decide)).2.1
      (by decide) (by decide)).1
    simpa using h,
   (C5_measurement_contract [Cond.boolC false] 0 s_q1 (by decide)).2.2
     (by decide) (by decide)⟩

/-- C2: compiling the same trace twice — same operand creation order, same
recorded calls, hence equal `TraceState`s and equal requested-promise lists
— yields identical circuits, with the same qubit/classical-bit index
assignment (in the returned state) and the same instruction order.  In this
embedding `_construct_circuit` resolves the source's hash-set iteration to
the stable creation order, so compilation is a function of the trace
alone. -/
theorem C2_compile_deterministic (s₁ s₂ : TraceState) (req₁ req₂ : List Nat)
    (hs : s₁ = s₂) (hr : req₁ = req₂) :
    _construct_circuit s₁ req₁ = _construct_circuit s₂ req₂ := by
  subst hs; subst hr; rfl

theorem C2_compile_deterministic_witness :
    _construct_circuit s_meas [1] = _construct_circuit s_meas [1] :=
  C2_compile_deterministic s_meas s_meas [1] [1] rfl rfl

/-- C3: one fresh Qubit, no gates, one `measure()` call, the resulting
promise requested as output — compilation yields a circuit with exactly one
quantum bit, one classical bit, one measurement instruction and zero gate
instructions; resolving outcome bitmask 0 makes the promise `False`,
bitmask 1 makes it `True`. -/
theorem C3_single_measurement_scenario :
    (Qubit.measure [] 0 s_q1).2 = .ok (some 1) ∧
    (_construct_circuit s_meas [1]).2.numQubits = 1 ∧
    (_construct_circuit s_meas [1]).2.numClbits = 1 ∧
    (_construct_circuit s_meas [1]).2.measureCount = 1 ∧
    (_construct_circuit s_meas [1]).2.gateCount = 0 ∧
    (_construct_circuit s_meas [1]).2.data = [CircuitInstr.measure 0 0] ∧
    ((interpret_result (_construct_circuit s_meas [1]).1 [1] 0).bit 1).toBool
      = .ok false ∧
    ((interpret_result (_construct_circuit s_meas [1]).1 [1] 1).bit 1).toBool
      = .ok true := by
  decide

/-- C9: entering an `as_control` scope appends exactly one operand to the
active-controls sequence (inner scopes keep every outer control), and
exiting the scope — whether the body finished normally or raised, since the
`with` statement runs `__exit__` in both cases and the body's outcome is an
arbitrary value here — restores the active-controls sequence to exactly its
state before entry. -/
theorem C9_control_scope_roundtrip {β : Type} (c : Cond) (s : TraceState)
    (body : TraceState → TraceState × β) :
    (enterControl c s).1.activeControls = s.activeControls ++ [c] ∧
    (withControl c body s).1.activeControls = s.activeControls :=
  ⟨rfl, rfl⟩

theorem setValue_static (s : TraceState) (pid b : Nat) (v : Bool) :
    ((setValue s pid v).bit b).index = (s.bit b).index ∧
    ((setValue s pid v).bit b).inverse = (s.bit b).inverse := by
  by_cases hpb : pid = b
  · subst hpb
    by_cases hlt : pid < s.bits.length
    · rw [setValue, updBit_bit_eq s pid _ hlt]
      exact ⟨rfl, rfl⟩
    · rw [setValue, updBit, updateAt_out_of_range _ _ _ (Nat.le_of_not_lt hlt)]
      exact ⟨rfl, rfl⟩
  · rw [setValue, updBit_bit_ne s pid b _ hpb]
    exact ⟨rfl, rfl⟩

theorem setValue_length (s : TraceState) (pid : Nat) (v : Bool) :
    (setValue s pid v).bits.length = s.bits.length :=
  updBit_length s pid _

theorem interpret_not_mem (req : List Nat) (s : TraceState) (n : Nat) (b : Nat)
    (hb : b ∉ req) : (interpret_result s req n).bit b = s.bit b := by
  induction req generalizing s with
  | nil => rfl
  | cons x t ih =>
    have hbx : x ≠ b := fun e => hb (e ▸ List.mem_cons_self x t)
    have hbt : b ∉ t := fun m => hb (List.mem_cons_of_mem x m)
    have hstep : interpret_result s (x :: t) n
        = interpret_result (setValue s x (Nat.testBit n (s.bit x).index)) t n := rfl
    rw [hstep, ih _ hbt, setValue, updBit_bit_ne _ _ _ _ hbx]

theorem interpret_value_of_mem (req : List Nat) (s : TraceState) (n : Nat)
    (pid : Nat) (hmem : pid ∈ req) (hlt : pid < s.bits.length) :
    ((interpret_result s req n).bit pid).value
      = some (Nat.testBit n ((s.bit pid).index)) ∧
    ((interpret_result s req n).bit pid).inverse = (s.bit pid).inverse := by
  induction req generalizing s with
  | nil => cases hmem
  | cons x t ih =>
    have hstep : interpret_result s (x :: t) n
        = interpret_result (setValue s x (Nat.testBit n (s.bit x).index)) t n := rfl
    by_cases hmt : pid ∈ t
    · have hlt' : pid < (setValue s x (Nat.testBit n (s.bit x).index)).bits.length := by
        rw [setValue_length]; exact hlt
      rcases ih (setValue s x (Nat.testBit n (s.bit x).index)) hmt hlt' with ⟨hv, hi⟩
      rcases setValue_static s x pid (Nat.testBit n (s.bit x).index) with ⟨hidx, hinv⟩
      rw [hstep]
      exact ⟨by rw [hv, hidx], by rw [hi, hinv]⟩
    · have hx : pid = x := by
        cases List.mem_cons.mp hmem with
        | inl h => exact h
        | inr h => exact absurd h hmt
      subst hx
      rw [hstep, interpret_not_mem t _ n pid hmt, setValue, updBit_bit_eq s pid _ hlt]
      exact ⟨rfl, rfl⟩

/-- C1 (amended): resolving a single-shot outcome bitmask `n` assigns each
requested promise the raw outcome bit at its classical index,
`value = bool((n >> index) & 1)`, without applying the inversion flag; the
inversion is applied when the promise is read as a boolean, so the resolved
boolean is `bool((n >> index) & 1)` negated exactly when the promise is
inverted. -/
theorem C1_promise_resolution (s : TraceState) (req : List Nat) (n : Nat)
    (pid : Nat) (hmem : pid ∈ req) (hlt : pid < s.bits.length) :
    ((interpret_result s req n).bit pid).value
      = some (Nat.testBit n ((s.bit pid).index)) ∧
    ((interpret_result s req n).bit pid).toBool
      = .ok (if (s.bit pid).inverse then !(Nat.testBit n ((s.bit pid).index))
             else Nat.testBit n ((s.bit pid).index)) := by
  rcases interpret_value_of_mem req s n pid hmem hlt with ⟨hv, hi⟩
  refine ⟨hv, ?_⟩
  simp [BitData.toBool, hv, hi]

theorem C1_promise_resolution_witness :
    ((interpret_result (_construct_circuit s_inv [2]).1 [2] 3).bit 2).value
      = some (Nat.testBit 3 (((_construct_circuit s_inv [2]).1.bit 2).index)) ∧
    ((interpret_result (_construct_circuit s_inv [2]).1 [2] 3).bit 2).toBool
      = .ok false :=
  ⟨(C1_promise_resolution (_construct_circuit s_inv [2]).1 [2] 3 2
      (by decide) (by decide)).1,
   by
    have h := (C1_promise_resolution (_construct_circuit s_inv [2]).1 [2] 3 2
      (by decide) (by decide)).2
    simpa using h⟩

/-- C1 counterexample: in the compiled inverted-promise trace (promise 2 is
the inversion of promise 1, classical bit index 1), resolving outcome
bitmask 3 stores `value = True` — the raw outcome bit — not
`bool((3 >> 1) & 1) ^ inverted = False` as the claim states. -/
theorem C1_counterexample :
    ¬ (((interpret_result (_construct_circuit s_inv [2]).1 [2] 3).bit 2).value
        = some (xor (Nat.testBit 3 ((_construct_circuit s_inv [2]).1.bit 2).index)
                    ((_construct_circuit s_inv [2]).1.bit 2).inverse)) := by
  decide


theorem promApp_isMeasurement (l : List InstrData) (m i : Nat) (x : Nat) :
    ((updateAt l m fun j => { j with promises := j.promises ++ [x] }).getD i
      defaultInstr).isMeasurement = (l.getD i defaultInstr).isMeasurement := by
  by_cases him : m = i
  · subst him
    by_cases hlt : m < l.length
    · rw [getD_updateAt_eq _ _ _ _ hlt]
    · rw [updateAt_out_of_range _ _ _ (Nat.le_of_not_lt hlt)]
  · rw [getD_updateAt_ne _ _ _ _ _ him]

/-- Full characterization of one `BitPromise.__invert__` call. -/
theorem invert_spec (s : TraceState) (pid : Nat)
    (hmid : (s.bit pid).operations.headD 0 < s.instrs.length) :
    (BitPromise.invert pid s).2 = s.bits.length ∧
    (BitPromise.invert pid s).1.bits.length = s.bits.length + 1 ∧
    (BitPromise.invert pid s).1.bit s.bits.length =
      ⟨false, [(s.bit pid).operations.headD 0], !(s.bit pid).inverse, none, 0, 0⟩ ∧
    (∀ b, b < s.bits.length → (BitPromise.invert pid s).1.bit b = s.bit b) ∧
    (BitPromise.invert pid s).1.instrs.length = s.instrs.length ∧
    (∀ i, ((BitPromise.invert pid s).1.instr i).isMeasurement
      = (s.instr i).isMeasurement) ∧
    (BitPromise.invert pid s).1.instr ((s.bit pid).operations.headD 0) =
      { s.instr ((s.bit pid).operations.headD 0) with promises :=
          (s.instr ((s.bit pid).operations.headD 0)).promises ++ [s.bits.length] } ∧
    (∀ i, i ≠ (s.bit pid).operations.headD 0 →
      (BitPromise.invert pid s).1.instr i = s.instr i) := by
  refine ⟨rfl, ?_, ?_, ?_, ?_, ?_, ?_, ?_⟩
  · show (s.bits ++ _).length = _
    simp
  · show (s.bits ++ _).getD s.bits.length defaultBit = _
    exact getD_append_self _ _ _
  · intro b hb
    show (s.bits ++ _).getD b defaultBit = _
    exact getD_append_left _ _ _ _ hb
  · show (updateAt s.instrs _ _).length = _
    exact updateAt_length _ _ _
  · intro i
    exact promApp_isMeasurement s.instrs _ i s.bits.length
  · show (updateAt s.instrs _ _).getD _ defaultInstr = _
    exact getD_updateAt_eq _ _ _ _ hmid
  · intro i hi
    show (updateAt s.instrs _ _).getD i defaultInstr = _
    exact getD_updateAt_ne _ _ _ _ _ (fun e => hi e.symm)

/-- C8: inverting a Promise creates a sibling on the same source
Measurement with the `inverted` flag flipped and registers it as an extra
output of that Measurement, without adding any instruction or measurement
(it never re-measures the qubit); double inversion restores the original
flag.  A promise whose resolution stored raw bit `v` reads as `v` xor its
flag, so when one shot stores the same raw bit into a promise and its
siblings (they share the one measurement), `~p` resolves to the negation of
`p`'s value and `~(~p)` resolves back to `p`'s value. -/
theorem C8_inversion_correctness (s : TraceState) (pid : Nat)
    (_hpid : pid < s.bits.length)
    (hmid : (s.bit pid).operations.headD 0 < s.instrs.length) :
    (BitPromise.invert pid s).2 = s.bits.length ∧
    ((BitPromise.invert s.bits.length (BitPromise.invert pid s).1).1.bit
        s.bits.length
      = ⟨false, [(s.bit pid).operations.headD 0], !(s.bit pid).inverse, none, 0, 0⟩) ∧
    ((BitPromise.invert s.bits.length (BitPromise.invert pid s).1).1.bit
        (s.bits.length + 1)
      = ⟨false, [(s.bit pid).operations.headD 0], (s.bit pid).inverse, none, 0, 0⟩) ∧
    ((BitPromise.invert s.bits.length (BitPromise.invert pid s).1).1.instrs.length
      = s.instrs.length) ∧
    (∀ i, ((BitPromise.invert s.bits.length (BitPromise.invert pid s).1).1.instr
        i).isMeasurement = (s.instr i).isMeasurement) ∧
    (s.bits.length ∈ ((BitPromise.invert s.bits.length
        (BitPromise.invert pid s).1).1.instr
        ((s.bit pid).operations.headD 0)).promises) ∧
    (s.bits.length + 1 ∈ ((BitPromise.invert s.bits.length
        (BitPromise.invert pid s).1).1.instr
        ((s.bit pid).operations.headD 0)).promises) ∧
    (∀ v : Bool,
      BitData.toBool ⟨false, (s.bit pid).operations, (s.bit pid).inverse, some v, 0, 0⟩
        = .ok (if (s.bit pid).inverse then !v else v) ∧
      BitData.toBool ⟨false, [(s.bit pid).operations.headD 0],
          !(s.bit pid).inverse, some v, 0, 0⟩
        = .ok (!(if (s.bit pid).inverse then !v else v)) ∧
      BitData.toBool ⟨false, [(s.bit pid).operations.headD 0],
          (s.bit pid).inverse, some v, 0, 0⟩
        = .ok (if (s.bit pid).inverse then !v else v)) := by
  obtain ⟨h1ret, h1len, h1new, h1old, h1ilen, h1imeas, h1imid, h1iother⟩ :=
    invert_spec s pid hmid
  have hmid2eq : ((BitPromise.invert pid s).1.bit s.bits.length).operations.headD 0
      = (s.bit pid).operations.headD 0 := by
    rw [h1new]
    rfl
  have hmid2 : ((BitPromise.invert pid s).1.bit s.bits.length).operations.headD 0
      < (BitPromise.invert pid s).1.instrs.length := by
    rw [hmid2eq, h1ilen]
    exact hmid
  obtain ⟨h2ret, h2len, h2new, h2old, h2ilen, h2imeas, h2imid, h2iother⟩ :=
    invert_spec (BitPromise.invert pid s).1 s.bits.length hmid2
  have hnlt : s.bits.length < (BitPromise.invert pid s).1.bits.length := by
    rw [h1len]; exact Nat.lt_succ_self _
  refine ⟨h1ret, ?_, ?_, ?_, ?_, ?_, ?_, ?_⟩
  · rw [h2old s.bits.length hnlt, h1new]
  · have : (BitPromise.invert pid s).1.bits.length = s.bits.length + 1 := h1len
    rw [← this, h2new, hmid2eq, h1new]
    simp
  · rw [h2ilen, h1ilen]
  · intro i
    rw [h2imeas i, h1imeas i]
  · rw [hmid2eq] at h2imid
    rw [h2imid, h1imid]
    show s.bits.length ∈ (_ ++ [s.bits.length]) ++ _
    exact List.mem_append_left _ (List.mem_append_right _ (List.mem_singleton.mpr rfl))
  · rw [hmid2eq] at h2imid
    rw [h2imid, h1len]
    exact List.mem_append_right _ (List.mem_singleton.mpr rfl)
  · intro v
    refine ⟨?_, ?_, ?_⟩ <;> cases hi : (s.bit pid).inverse <;> simp [BitData.toBool]

theorem C8_inversion_correctness_witness :
    ((BitPromise.invert 1 s_meas).2 = 2) ∧
    (BitData.toBool ⟨false, [(s_meas.bit 1).operations.headD 0],
        !(s_meas.bit 1).inverse, some true, 0, 0⟩ = .ok false) :=
  ⟨(C8_inversion_correctness s_meas 1 (by decide) (by decide)).1,
   by
    have h := ((C8_inversion_correctness s_meas 1 (by decide) (by decide)).2.2.2.2.2.2.2
      true).2.1
    simpa using h⟩

/-- C5 counterexample: `measure(conditions=[False])` has no Qubit or
Promise condition, so by the claim it should "always execute" and return a
fresh Promise; the source instead short-circuits on the false build-time
condition, creates nothing and returns `None`. -/
theorem C5_counterexample :
    Qubit.measure [Cond.boolC false] 0 s_q1 = (s_q1, Except.ok none) := by
  decide

/-- C6 counterexample: a gate call whose receiver also appears among the
quantum-control conditions (`q.x(conditions=[q])`) appends the one
instruction twice to the receiver's log, not exactly once. -/
theorem C6_counterexample :
    ((add_gate "x" [Cond.qubitC 0] 0 s_q1).1.bit 0).operations = [0, 0] ∧
    ¬ ((((add_gate "x" [Cond.qubitC 0] 0 s_q1).1.bit 0).operations.count 0) = 1) := by
  decide

theorem wfCond_of_agree (s s' : TraceState)
    (hlen : s.bits.length ≤ s'.bits.length)
    (hq : ∀ i, i < s.bits.length → (s'.bit i).isQubit = (s.bit i).isQubit)
    (c : Cond) (h : wfCond s c) : wfCond s' c := by
  cases c with
  | qubitC i => exact ⟨Nat.lt_of_lt_of_le h.1 hlen, by rw [hq i h.1]; exact h.2⟩
  | promiseC i => exact ⟨Nat.lt_of_lt_of_le h.1 hlen, by rw [hq i h.1]; exact h.2⟩
  | boolC b => trivial

/-- Bit-level characterization of a non-short-circuited gate call. -/
theorem add_gate_spec (name : String) (conds : List Cond) (self : Nat)
    (s : TraceState)
    (hbt : (condBools (conds ++ s.activeControls)).all (fun b => b) = true) :
    (add_gate name conds self s).1.instrs = s.instrs ++
      [⟨false, name, (condQubits (conds ++ s.activeControls)).length,
        condQubits (conds ++ s.activeControls) ++ [self],
        condPromises (conds ++ s.activeControls)⟩] ∧
    (add_gate name conds self s).1.bits.length = s.bits.length ∧
    (add_gate name conds self s).1.activeControls = s.activeControls ∧
    ∀ b, b < s.bits.length →
      (add_gate name conds self s).1.bit b =
        withOps (s.bit b) ((s.bit b).operations ++
          List.replicate
            (((condQubits (conds ++ s.activeControls) ++ [self]) ++
              condPromises (conds ++ s.activeControls)).count b)
            s.instrs.length) := by
  have hred : add_gate name conds self s =
      (appendOps (condPromises (conds ++ s.activeControls)) s.instrs.length
        (appendOps (condQubits (conds ++ s.activeControls) ++ [self]) s.instrs.length
          { s with instrs := s.instrs ++
            [⟨false, name, (condQubits (conds ++ s.activeControls)).length,
              condQubits (conds ++ s.activeControls) ++ [self],
              condPromises (conds ++ s.activeControls)⟩] }),
       some self) := by
    simp [add_gate, hbt]
  refine ⟨?_, ?_, ?_, ?_⟩
  · rw [hred]
    simp [appendOps_instrs]
  · rw [hred]
    simp [appendOps_length]
  · rw [hred]
    simp [appendOps_controls]
  · intro b hb
    rw [hred]
    have hb1 : b < ({ s with instrs := s.instrs ++
            [(⟨false, name, (condQubits (conds ++ s.activeControls)).length,
              condQubits (conds ++ s.activeControls) ++ [self],
              condPromises (conds ++ s.activeControls)⟩ : InstrData)] } : TraceState).bits.length := hb
    have hb2 : b < (appendOps (condQubits (conds ++ s.activeControls) ++ [self])
        s.instrs.length { s with instrs := s.instrs ++
            [(⟨false, name, (condQubits (conds ++ s.activeControls)).length,
              condQubits (conds ++ s.activeControls) ++ [self],
              condPromises (conds ++ s.activeControls)⟩ : InstrData)] }).bits.length := by
      rw [appendOps_length]; exact hb
    rw [appendOps_bit _ _ _ _ hb2, appendOps_bit _ _ _ _ hb1]
    show withOps (s.bit b) (((s.bit b).operations ++ _) ++ _) = _
    rw [List.append_assoc, List.count_append, List.count_append, List.replicate_add,
      List.replicate_add, List.count_append, List.replicate_add]

theorem Inv_empty : Inv emptyState := by
  refine ⟨?_, ?_, ?_⟩
  · intro b hb
    simp [emptyState] at hb
  · intro c hc
    simp [emptyState] at hc
  · intro p hp
    simp [emptyState] at hp

theorem Inv_newQubit (s : TraceState) (h : Inv s) :
    Inv (TraceState.newQubit s).1 := by
  obtain ⟨hlog, hctl, hshape⟩ := h
  have hlen : (TraceState.newQubit s).1.bits.length = s.bits.length + 1 := by
    show (s.bits ++ _).length = _
    simp
  have hold : ∀ b, b < s.bits.length → (TraceState.newQubit s).1.bit b = s.bit b := by
    intro b hb
    show (s.bits ++ _).getD b defaultBit = _
    exact getD_append_left _ _ _ _ hb
  have hnew : (TraceState.newQubit s).1.bit s.bits.length
      = ⟨true, [], false, none, 0, 0⟩ := by
    show (s.bits ++ _).getD s.bits.length defaultBit = _
    exact getD_append_self _ _ _
  have hinstr : (TraceState.newQubit s).1.instrs = s.instrs := rfl
  refine ⟨?_, ?_, ?_⟩
  · intro b hb i hi
    rw [hlen] at hb
    rcases Nat.lt_or_ge b s.bits.length with hb' | hb'
    · rw [hold b hb'] at hi
      exact hlog b hb' i hi
    · have hbe : b = s.bits.length := Nat.le_antisymm (Nat.lt_succ_iff.mp hb) hb'
      rw [hbe, hnew] at hi
      cases hi
  · intro c hc
    exact wfCond_of_agree s _ (by rw [hlen]; exact Nat.le_succ _)
      (fun i hi => by rw [hold i hi]) c (hctl c hc)
  · intro p hp hpq
    rw [hlen] at hp
    rcases Nat.lt_or_ge p s.bits.length with hp' | hp'
    · rw [hold p hp'] at hpq ⊢
      exact hshape p hp' hpq
    · have hpe : p = s.bits.length := Nat.le_antisymm (Nat.lt_succ_iff.mp hp) hp'
      rw [hpe, hnew] at hpq
      cases hpq

theorem Inv_enter (s : TraceState) (c : Cond) (h : Inv s) (hc : wfCond s c) :
    Inv (enterControl c s).1 := by
  obtain ⟨hlog, hctl, hshape⟩ := h
  refine ⟨hlog, ?_, hshape⟩
  intro c' hc'
  rcases List.mem_append.mp hc' with hm | hm
  · exact hctl c' hm
  · rw [List.mem_singleton.mp hm]
    exact hc

theorem Inv_exit (s : TraceState) (cs : List Cond) (h : Inv s)
    (hcs : ∀ c ∈ cs, wfCond s c) : Inv (exitControl cs s) := by
  obtain ⟨hlog, _, hshape⟩ := h
  exact ⟨hlog, hcs, hshape⟩

theorem withOps_ops (bd : BitData) (ops : List Nat) :
    (withOps bd ops).operations = ops := rfl

theorem withOps_isQubit (bd : BitData) (ops : List Nat) :
    (withOps bd ops).isQubit = bd.isQubit := rfl

theorem wf_of_mem_condQubits (s : TraceState) (l : List Cond)
    (hwf : ∀ c ∈ l, wfCond s c) (i : Nat) (hi : i ∈ condQubits l) :
    i < s.bits.length ∧ (s.bit i).isQubit = true := by
  rcases List.mem_filterMap.mp hi with ⟨c, hc, hm⟩
  cases c with
  | qubitC j => cases hm; exact hwf _ hc
  | promiseC j => cases hm
  | boolC b => cases hm

theorem Inv_gate (s : TraceState) (name : String) (conds : List Cond)
    (self : Nat) (h : Inv s) (_hself : self < s.bits.length)
    (hselfq : (s.bit self).isQubit = true)
    (hwf : ∀ c ∈ conds, wfCond s c) : Inv (add_gate name conds self s).1 := by
  obtain ⟨hlog, hctl, hshape⟩ := h
  cases hall : (condBools (conds ++ s.activeControls)).all (fun b => b) with
  | false =>
    have hng : (add_gate name conds self s).1 = s := by simp [add_gate, hall]
    rw [hng]
    exact ⟨hlog, hctl, hshape⟩
  | true =>
    obtain ⟨hinstr, hlen, hctls, hbit⟩ := add_gate_spec name conds self s hall
    have hwfall : ∀ c ∈ conds ++ s.activeControls, wfCond s c := by
      intro c hc
      rcases List.mem_append.mp hc with hm | hm
      · exact hwf c hm
      · exact hctl c hm
    have hstb : ∀ i, i < s.instrs.length →
        (add_gate name conds self s).1.instr i = s.instr i := by
      intro i hilt
      show ((add_gate name conds self s).1.instrs).getD i defaultInstr = _
      rw [hinstr]
      exact getD_append_left _ _ _ _ hilt
    have hnewinstr : (add_gate name conds self s).1.instr s.instrs.length =
        ⟨false, name, (condQubits (conds ++ s.activeControls)).length,
          condQubits (conds ++ s.activeControls) ++ [self],
          condPromises (conds ++ s.activeControls)⟩ := by
      show ((add_gate name conds self s).1.instrs).getD s.instrs.length defaultInstr = _
      rw [hinstr]
      exact getD_append_self _ _ _
    refine ⟨?_, ?_, ?_⟩
    · intro b hb i hi
      rw [hlen] at hb
      rw [hbit b hb, withOps_ops] at hi
      rw [hinstr, List.length_append]
      rcases List.mem_append.mp hi with hm | hm
      · exact Nat.lt_of_lt_of_le (hlog b hb i hm) (Nat.le_add_right _ _)
      · rw [List.eq_of_mem_replicate hm]
        simp
    · intro c hc
      rw [hctls] at hc
      refine wfCond_of_agree s _ (Nat.le_of_eq hlen.symm) ?_ c (hctl c hc)
      intro i hi
      rw [hbit i hi, withOps_isQubit]
    · intro p hp hpq
      rw [hlen] at hp
      rw [hbit p hp, withOps_isQubit] at hpq
      obtain ⟨m, rest, hops, hmmeas, hmmem, hrest⟩ := hshape p hp hpq
      have hmlt : m < s.instrs.length :=
        hlog p hp m (by rw [hops]; exact List.mem_cons_self _ _)
      refine ⟨m, rest ++ List.replicate
          (((condQubits (conds ++ s.activeControls) ++ [self]) ++
            condPromises (conds ++ s.activeControls)).count p) s.instrs.length,
        ?_, ?_, ?_, ?_⟩
      · rw [hbit p hp, withOps_ops, hops]
        rfl
      · rw [hstb m hmlt]
        exact hmmeas
      · rw [hstb m hmlt]
        exact hmmem
      · intro i hi
        rcases List.mem_append.mp hi with hm | hm
        · have hilt : i < s.instrs.length :=
            hlog p hp i (by rw [hops]; exact List.mem_cons_of_mem _ hm)
          rw [hstb i hilt]
          exact hrest i hm
        · have hie : i = s.instrs.length := List.eq_of_mem_replicate hm
          have hpos : 0 < ((condQubits (conds ++ s.activeControls) ++ [self]) ++
              condPromises (conds ++ s.activeControls)).count p := by
            rcases Nat.eq_zero_or_pos (((condQubits (conds ++ s.activeControls) ++ [self]) ++
                condPromises (conds ++ s.activeControls)).count p) with h0 | h0
            · rw [h0] at hm
              cases hm
            · exact h0
          have hpmem : p ∈ (condQubits (conds ++ s.activeControls) ++ [self]) ++
              condPromises (conds ++ s.activeControls) := List.count_pos_iff.mp hpos
          have hpps : p ∈ condPromises (conds ++ s.activeControls) := by
            rcases List.mem_append.mp hpmem with hqm | hpm
            · rcases List.mem_append.mp hqm with hqq | hqs
              · have := (wf_of_mem_condQubits s _ hwfall p hqq).2
                rw [this] at hpq
                cases hpq
              · rw [List.mem_singleton.mp hqs] at hpq
                rw [hselfq] at hpq
                cases hpq
            · exact hpm
          rw [hie, hnewinstr]
          exact ⟨rfl, hpps⟩

theorem Inv_measure (s : TraceState) (conds : List Cond) (self : Nat)
    (h : Inv s) (hself : self < s.bits.length)
    (hselfq : (s.bit self).isQubit = true)
    (_hwf : ∀ c ∈ conds, wfCond s c) : Inv (Qubit.measure conds self s).1 := by
  obtain ⟨hlog, hctl, hshape⟩ := h
  by_cases herr : (condQubits (conds ++ s.activeControls)).length +
      (condPromises (conds ++ s.activeControls)).length ≠ 0
  · have hng : (Qubit.measure conds self s).1 = s := by simp [Qubit.measure, herr]
    rw [hng]
    exact ⟨hlog, hctl, hshape⟩
  · have hsum : (condQubits (conds ++ s.activeControls)).length +
        (condPromises (conds ++ s.activeControls)).length = 0 := by
      exact Nat.eq_zero_of_not_pos (fun hpos => herr (Nat.pos_iff_ne_zero.mp hpos))
    have hq : condQubits (conds ++ s.activeControls) = [] :=
      List.length_eq_zero.mp (Nat.eq_zero_of_add_eq_zero_right hsum)
    have hp : condPromises (conds ++ s.activeControls) = [] :=
      List.length_eq_zero.mp (Nat.eq_zero_of_add_eq_zero_left hsum)
    cases hall : (condBools (conds ++ s.activeControls)).all (fun b => b) with
    | false =>
      have hng : (Qubit.measure conds self s).1 = s := by
        simp [Qubit.measure, hq, hp, hall]
      rw [hng]
      exact ⟨hlog, hctl, hshape⟩
    | true =>
      have hred := measure_success conds self s hq hp hall
      have hm1 : (Qubit.measure conds self s).1 = appendOp { s with
          bits := s.bits ++ [⟨false, [s.instrs.length], false, none, 0, 0⟩],
          instrs := s.instrs ++ [⟨true, "measure", 0, [self], [s.bits.length]⟩] }
          self s.instrs.length := by
        rw [hred]
      have hlen' : (Qubit.measure conds self s).1.bits.length = s.bits.length + 1 := by
        rw [hm1, appendOp, updBit_length]
        simp
      have hinstr' : (Qubit.measure conds self s).1.instrs
          = s.instrs ++ [⟨true, "measure", 0, [self], [s.bits.length]⟩] := by
        rw [hm1]
        rfl
      have hctls' : (Qubit.measure conds self s).1.activeControls
          = s.activeControls := by
        rw [hm1]
        rfl
      have hselfne : self ≠ s.bits.length := Nat.ne_of_lt hself
      have hbitpid : (Qubit.measure conds self s).1.bit s.bits.length
          = ⟨false, [s.instrs.length], false, none, 0, 0⟩ := by
        rw [hm1, appendOp, updBit_bit_ne _ _ _ _ hselfne]
        show (s.bits ++ _).getD s.bits.length defaultBit = _
        exact getD_append_self _ _ _
      have hlenext : self <
          (s.bits ++ [(⟨false, [s.instrs.length], false, none, 0, 0⟩ : BitData)]).length := by
        rw [List.length_append]
        exact Nat.lt_of_lt_of_le hself (Nat.le_add_right _ _)
      have hbitself : (Qubit.measure conds self s).1.bit self
          = withOps (s.bit self) ((s.bit self).operations ++ [s.instrs.length]) := by
        rw [hm1, appendOp, updBit_bit_eq _ _ _ hlenext]
        have hsb : ({ s with
            bits := s.bits ++ [(⟨false, [s.instrs.length], false, none, 0, 0⟩ : BitData)],
            instrs := s.instrs ++ [(⟨true, "measure", 0, [self], [s.bits.length]⟩ : InstrData)] }
              : TraceState).bit self = s.bit self := by
          show (s.bits ++ _).getD self defaultBit = _
          exact getD_append_left _ _ _ _ hself
        rw [hsb]
        rfl
      have hbitold : ∀ b, b < s.bits.length → b ≠ self →
          (Qubit.measure conds self s).1.bit b = s.bit b := by
        intro b hb hbs
        rw [hm1, appendOp, updBit_bit_ne _ _ _ _ (fun e => hbs e.symm)]
        show (s.bits ++ _).getD b defaultBit = _
        exact getD_append_left _ _ _ _ hb
      have hstb : ∀ i, i < s.instrs.length →
          (Qubit.measure conds self s).1.instr i = s.instr i := by
        intro i hilt
        show ((Qubit.measure conds self s).1.instrs).getD i defaultInstr = _
        rw [hinstr']
        exact getD_append_left _ _ _ _ hilt
      have hnewinstr : (Qubit.measure conds self s).1.instr s.instrs.length
          = ⟨true, "measure", 0, [self], [s.bits.length]⟩ := by
        show ((Qubit.measure conds self s).1.instrs).getD s.instrs.length defaultInstr = _
        rw [hinstr']
        exact getD_append_self _ _ _
      refine ⟨?_, ?_, ?_⟩
      · intro b hb i hi
        rw [hlen'] at hb
        rw [hinstr', List.length_append]
        rcases Nat.lt_or_ge b s.bits.length with hb' | hb'
        · by_cases hbs : b = self
          · subst hbs
            rw [hbitself, withOps_ops] at hi
            rcases List.mem_append.mp hi with hm | hm
            · exact Nat.lt_of_lt_of_le (hlog b hb' i hm) (Nat.le_add_right _ _)
            · rw [List.mem_singleton.mp hm]
              simp
          · rw [hbitold b hb' hbs] at hi
            exact Nat.lt_of_lt_of_le (hlog b hb' i hi) (Nat.le_add_right _ _)
        · have hbe : b = s.bits.length := Nat.le_antisymm (Nat.lt_succ_iff.mp hb) hb'
          subst hbe
          rw [hbitpid] at hi
          rw [List.mem_singleton.mp hi]
          simp
      · intro c hc
        rw [hctls'] at hc
        refine wfCond_of_agree s _ (by rw [hlen']; exact Nat.le_succ _) ?_ c (hctl c hc)
        intro i hi
        by_cases his : i = self
        · subst his
          rw [hbitself, withOps_isQubit]
        · rw [hbitold i hi his]
      · intro p hp hpq
        rw [hlen'] at hp
        rcases Nat.lt_or_ge p s.bits.length with hp' | hp'
        · by_cases hps : p = self
          · subst hps
            rw [hbitself, withOps_isQubit, hselfq] at hpq
            cases hpq
          · rw [hbitold p hp' hps] at hpq
            obtain ⟨m, rest, hops, hmmeas, hmmem, hrest⟩ := hshape p hp' hpq
            have hmlt : m < s.instrs.length :=
              hlog p hp' m (by rw [hops]; exact List.mem_cons_self _ _)
            refine ⟨m, rest, by rw [hbitold p hp' hps]; exact hops, ?_, ?_, ?_⟩
            · rw [hstb m hmlt]
              exact hmmeas
            · rw [hstb m hmlt]
              exact hmmem
            · intro i hi
              have hilt : i < s.instrs.length :=
                hlog p hp' i (by rw [hops]; exact List.mem_cons_of_mem _ hi)
              rw [hstb i hilt]
              exact hrest i hi
        · have hpe : p = s.bits.length := Nat.le_antisymm (Nat.lt_succ_iff.mp hp) hp'
          subst hpe
          refine ⟨s.instrs.length, [], by rw [hbitpid], ?_, ?_, ?_⟩
          · rw [hnewinstr]
          · rw [hnewinstr]
            exact List.mem_singleton.mpr rfl
          · intro i hi
            cases hi

theorem Inv_invert (s : TraceState) (pid : Nat) (h : Inv s)
    (hpid : pid < s.bits.length) (hpq : (s.bit pid).isQubit = false) :
    Inv (BitPromise.invert pid s).1 := by
  obtain ⟨hlog, hctl, hshape⟩ := h
  obtain ⟨m0, rest0, hops0, hm0meas, hm0mem, hrest0⟩ := hshape pid hpid hpq
  have hhead : (s.bit pid).operations.headD 0 = m0 := by
    rw [hops0]
    rfl
  have hmid : (s.bit pid).operations.headD 0 < s.instrs.length := by
    rw [hhead]
    exact hlog pid hpid m0 (by rw [hops0]; exact List.mem_cons_self _ _)
  obtain ⟨hret, hlen', hnew, hold, hilen, himeas, himid, hiother⟩ := invert_spec s pid hmid
  rw [hhead] at hnew himid hiother
  refine ⟨?_, ?_, ?_⟩
  · intro b hb i hi
    rw [hlen'] at hb
    rw [hilen]
    rcases Nat.lt_or_ge b s.bits.length with hb' | hb'
    · rw [hold b hb'] at hi
      exact hlog b hb' i hi
    · have hbe : b = s.bits.length := Nat.le_antisymm (Nat.lt_succ_iff.mp hb) hb'
      subst hbe
      rw [hnew] at hi
      rw [List.mem_singleton.mp hi]
      rw [hhead] at hmid
      exact hmid
  · intro c hc
    have hc' : c ∈ s.activeControls := hc
    refine wfCond_of_agree s _ (by rw [hlen']; exact Nat.le_succ _) ?_ c (hctl c hc')
    intro i hi
    rw [hold i hi]
  · intro p hp hpq'
    rw [hlen'] at hp
    rcases Nat.lt_or_ge p s.bits.length with hp' | hp'
    · rw [hold p hp'] at hpq'
      obtain ⟨m, rest, hops, hmmeas, hmmem, hrest⟩ := hshape p hp' hpq'
      refine ⟨m, rest, by rw [hold p hp']; exact hops, ?_, ?_, ?_⟩
      · by_cases hmm : m = m0
        · subst hmm
          rw [himid]
          show (s.instr m).isMeasurement = true
          exact hmmeas
        · rw [hiother m hmm]
          exact hmmeas
      · by_cases hmm : m = m0
        · subst hmm
          rw [himid]
          show p ∈ (s.instr m).promises ++ [s.bits.length]
          exact List.mem_append_left _ hmmem
        · rw [hiother m hmm]
          exact hmmem
      · intro i hi
        have hine : i ≠ m0 := by
          intro e
          have hfalse := (hrest i hi).1
          rw [e, hm0meas] at hfalse
          cases hfalse
        rw [hiother i hine]
        exact hrest i hi
    · have hpe : p = s.bits.length := Nat.le_antisymm (Nat.lt_succ_iff.mp hp) hp'
      subst hpe
      refine ⟨m0, [], by rw [hnew], ?_, ?_, ?_⟩
      · rw [himid]
        show (s.instr m0).isMeasurement = true
        exact hm0meas
      · rw [himid]
        show s.bits.length ∈ (s.instr m0).promises ++ [s.bits.length]
        exact List.mem_append_right _ (List.mem_singleton.mpr rfl)
      · intro i hi
        cases hi

theorem Inv_reachable (s : TraceState) (h : Reachable s) : Inv s := by
  induction h with
  | empty => exact Inv_empty
  | newQubit s' _ ih => exact Inv_newQubit s' ih
  | gate s' name conds self _ hself hq hwf ih =>
    exact Inv_gate s' name conds self ih hself hq hwf
  | measureQ s' conds self _ hself hq hwf ih =>
    exact Inv_measure s' conds self ih hself hq hwf
  | invertP s' pid _ hpid hpq ih => exact Inv_invert s' pid ih hpid hpq
  | enterC s' c _ hc ih => exact Inv_enter s' c ih hc
  | exitC s' cs _ hcs ih => exact Inv_exit s' cs ih hcs

/-- C7 (amended): at every point of a trace (every reachable state), every
Promise's operations log starts with the Measurement that created it, and
every later entry is a gate Instruction that uses the Promise as a
classical condition — so gates conditioned on a Promise do get appended to
its log, and the log is exactly the creating Measurement only while the
Promise has not yet been used as a condition. -/
theorem C7_promise_log_invariant (s : TraceState) (h : Reachable s) :
    promiseShape s :=
  (Inv_reachable s h).2.2

theorem C7_promise_log_invariant_witness : promiseShape s_meas :=
  C7_promise_log_invariant s_meas
    (Reachable.measureQ s_q1 [] 0
      (Reachable.newQubit emptyState Reachable.empty)
      (by decide) (by decide)
      (fun c hc => absurd hc (List.not_mem_nil c)))

/-- C7 counterexample: after conditioning a gate on promise 1, that
promise's operations log holds two entries — its measurement (id 0) and the
gate instruction (id 1) — so the log does not contain exactly the creating
Measurement. -/
theorem C7_counterexample :
    (s_condGate.bit 1).isQubit = false ∧
    (s_condGate.bit 1).operations = [0, 1] ∧
    (s_condGate.instr 1).isMeasurement = false ∧
    ¬ ((s_condGate.bit 1).operations.length = 1) := by
  decide

end QuPy

